import Mathlib

/-!
Shallow embedding of the AI Co-Scientist agent pipeline.

Each section embeds one Python agent module (`src/agents/*.py`) of the
repository as executable Lean definitions, and the theorems at the end of
the file settle the behavioural claims about those agents.

Python text is modelled as `List Char` (the repository only manipulates
ASCII prompt/response text).  The Python string operations used by the
agents (`in`, `split`, `replace`, `lower`, `strip`, `startswith`) are
reimplemented below as structurally recursive functions so that every
definition evaluates inside the kernel.  Calls to the language model are
modelled as oracle parameters (functions producing the raw response
text), since the agents treat those responses as opaque input.
-/

namespace CoScientist

/-! ## Text primitives -/

/-- Python `needle in hay` (substring test). -/
def containsSub (hay needle : List Char) : Bool := decide (needle <:+: hay)

/-- Worker for `splitSub`.  The fuel starts at the length of the string, which
is enough because every step consumes at least one character. -/
def splitTail (sep : List Char) : ℕ → List Char → List Char → List (List Char)
  | 0, s, acc => [acc.reverse ++ s]
  | fuel + 1, s, acc =>
    match s with
    | [] => [acc.reverse]
    | c :: t =>
      if sep.isPrefixOf (c :: t) then
        acc.reverse :: splitTail sep fuel ((c :: t).drop sep.length) []
      else
        splitTail sep fuel t (c :: acc)

/-- Python `s.split(sep)` for a non-empty separator. -/
def splitSub (s sep : List Char) : List (List Char) := splitTail sep s.length s []

/-- Python `sep.join(parts)`. -/
def joinSep (sep : List Char) : List (List Char) → List Char
  | [] => []
  | [x] => x
  | x :: y :: r => x ++ sep ++ joinSep sep (y :: r)

/-- Python `s.replace(pat, repl)`, which equals `repl.join(s.split(pat))`. -/
def replaceSub (s pat repl : List Char) : List Char := joinSep repl (splitSub s pat)

/-- Python `s.split(sep, 1)[-1]` for a separator that occurs in `s`:
everything after the first occurrence of `sep`.  When `sep` does not occur
the result is the whole string, matching Python, because the recursion
just walks off the end; the callers additionally guard on occurrence. -/
def dropAfterSep (sep : List Char) : List Char → List Char
  | [] => []
  | c :: t => if sep.isPrefixOf (c :: t) then (c :: t).drop sep.length else dropAfterSep sep t

/-- ASCII lower-casing of one character, as Python `str.lower` acts on the
ASCII prompt text handled by the agents. -/
def lowerChar (c : Char) : Char :=
  if 'A' ≤ c ∧ c ≤ 'Z' then Char.ofNat (c.toNat + 32) else c

/-- Python `s.lower()`. -/
def lower (s : List Char) : List Char := s.map lowerChar

/-- Whitespace characters stripped by Python `str.strip()` (ASCII range). -/
def isPySpace (c : Char) : Bool :=
  c == ' ' || c == '\t' || c == '\n' || c == '\r' || c == '\x0b' || c == '\x0c'

/-- Python `s.strip()`. -/
def pyStrip (s : List Char) : List Char :=
  ((s.dropWhile isPySpace).reverse.dropWhile isPySpace).reverse

def digitVal (c : Char) : ℕ := c.toNat - 48

/-- Python `int(s)` on the digit strings produced by the score patterns,
returning `none` on non-digit input (where Python would raise). -/
def toNatDigits (s : List Char) : Option ℕ :=
  if s ≠ [] ∧ s.all (fun c => decide ('0' ≤ c) && decide (c ≤ '9')) then
    some (s.foldl (fun a c => a * 10 + digitVal c) 0)
  else none

/-! ## Ranking agent (`src/agents/ranking_agent.py`)

The scoring strategy (`_rank_by_scoring` together with `_extract_scores`)
and the pairwise tournament strategy (`_rank_by_pairwise_comparison`). -/

namespace RankingAgent

/-- The criteria list of `_extract_scores`. -/
def criteria : List String :=
  ["novelty", "plausibility", "relevance", "testability", "potential impact"]

/-- Pattern `f"{criterion}: {i}"`. -/
def colonPattern (c : String) (i : ℕ) : List Char :=
  c.data ++ ": ".data ++ (toString i).data

/-- Pattern `f"{criterion} - {i}"`. -/
def dashPattern (c : String) (i : ℕ) : List Char :=
  c.data ++ " - ".data ++ (toString i).data

/-- Pattern `f"{criterion}: {i}/10"`. -/
def slashPattern (c : String) (i : ℕ) : List Char :=
  c.data ++ ": ".data ++ (toString i).data ++ "/10".data

/-- The pattern list built in `_extract_scores`, in its exact order:
all colon patterns for i = 1..10, then all dash patterns, then all
slash patterns. -/
def scorePatterns (c : String) : List (List Char) :=
  (List.range' 1 10).map (colonPattern c) ++ (List.range' 1 10).map (dashPattern c)
    ++ (List.range' 1 10).map (slashPattern c)

/-- `int(pattern.split(" ")[-1].replace("/10", ""))`: the numeric score is
re-parsed from the matched pattern text itself. -/
def parseScoreToken (p : List Char) : ℕ :=
  (toNatDigits (replaceSub ((splitSub p " ".data).getLastD []) "/10".data [])).getD 0

/-- `pattern.lower() in evaluation.lower()`. -/
def patternHits (evaluation : String) (p : List Char) : Bool :=
  containsSub (lower evaluation.data) (lower p)

/-- Score extraction for one criterion: the first pattern in `scorePatterns`
occurring in the evaluation text wins (the inner `break` of the Python
loop), and its trailing number is the score. -/
def findScore (evaluation : String) (c : String) : Option ℕ :=
  ((scorePatterns c).find? (patternHits evaluation)).map parseScoreToken

/-- `_extract_scores`: the insertion-ordered dict of criteria that matched,
as an association list. -/
def extractScores (evaluation : String) : List (String × ℕ) :=
  criteria.filterMap (fun c => (findScore evaluation c).map (fun s => (c, s)))

/-- `sum(scores.values()) / len(scores) if scores else 0` from
`_rank_by_scoring`, with Python float arithmetic modelled exactly by `ℚ`
(all values involved are small integers). -/
def overallScore (scores : List (String × ℕ)) : ℚ :=
  if scores = [] then 0
  else ((scores.map (fun p => (p.2 : ℚ))).sum) / (scores.length : ℚ)

/-- All index pairs `(i, j)` with `i < j < n`, in the order produced by the
two nested `for` loops of `_rank_by_pairwise_comparison`. -/
def pairs (n : ℕ) : List (ℕ × ℕ) :=
  (List.range n).flatMap (fun i => (List.range' (i + 1) (n - (i + 1))).map (fun j => (i, j)))

/-- `wins[k] += 1`. -/
def bumpWins (w : List ℕ) (k : ℕ) : List ℕ := w.set k (w.getD k 0 + 1)

/-- One comparison step: the judged winner 1 bumps the first index, 2 bumps
the second, anything else (a tie) bumps neither.  The judge argument is the
oracle for `_determine_winner` applied to the model response for that
pair. -/
def winStep (judge : ℕ → ℕ → ℕ) (w : List ℕ) (p : ℕ × ℕ) : List ℕ :=
  if judge p.1 p.2 = 1 then bumpWins w p.1
  else if judge p.1 p.2 = 2 then bumpWins w p.2
  else w

/-- The win-count vector after all pairwise comparisons, starting from
`[0] * n`. -/
def winsVec (judge : ℕ → ℕ → ℕ) (n : ℕ) : List ℕ :=
  (pairs n).foldl (winStep judge) (List.replicate n 0)

/-- A comparison is decisive when the judge returned 1 or 2. -/
def decisive (judge : ℕ → ℕ → ℕ) (p : ℕ × ℕ) : Bool :=
  judge p.1 p.2 == 1 || judge p.1 p.2 == 2

/-- `total_comparisons` as computed in the code: the number of recorded
comparisons whose index pair contains `idx`. -/
def totalComparisons (n idx : ℕ) : ℕ :=
  (pairs n).countP (fun p => p.1 == idx || p.2 == idx)

/-- Comparator modelling `sorted(range(n), key=lambda k: wins[k], reverse=True)`:
descending by win count.  `List.mergeSort` is a stable sort, so sorting
`List.range n` with this comparator is exactly Python's stable
reverse-sorted order. -/
def winsLE (w : List ℕ) (a b : ℕ) : Bool := decide (w.getD b 0 ≤ w.getD a 0)

/-- `ranked_indices`: hypothesis indices in rank order. -/
def rankedIndices (w : List ℕ) (n : ℕ) : List ℕ := (List.range n).mergeSort (winsLE w)

/-- A ranked hypothesis record: the copied hypothesis dict plus the keys
`rank`, `wins` and `total_comparisons` added by the ranking loop. -/
structure RankedHyp (H : Type) where
  hyp : H
  rank : ℕ
  wins : ℕ
  total_comparisons : ℕ
deriving DecidableEq

/-- `_rank_by_pairwise_comparison`, with the per-pair winner decisions
supplied by the `judge` oracle. -/
def rankByPairwise {H : Type} [Inhabited H] (judge : ℕ → ℕ → ℕ) (hyps : List H) :
    List (RankedHyp H) :=
  let n := hyps.length
  let w := winsVec judge n
  (rankedIndices w n).enum.map (fun p =>
    { hyp := hyps.getD p.2 default
      rank := p.1 + 1
      wins := w.getD p.2 0
      total_comparisons := totalComparisons n p.2 })

/-- The rank value that input index `i` receives: one plus its position in
`rankedIndices`. -/
def rankAssigned (judge : ℕ → ℕ → ℕ) (n i : ℕ) : ℕ :=
  (rankedIndices (winsVec judge n) n).indexOf i + 1

/-- Recursive reformulation of `pairs`, used only in the counting proofs:
`pairsUpTo (n+1)` adds all pairs whose second component is `n`. -/
def pairsUpTo : ℕ → List (ℕ × ℕ)
  | 0 => []
  | n + 1 => pairsUpTo n ++ (List.range n).map (fun i => (i, n))

end RankingAgent

/-! ## Proximity agent (`src/agents/proximity_agent.py`) -/

namespace ProximityAgent

/-- The four `score_patterns` of `_extract_proximity_info`.  In the code each
ends with a format placeholder; formatting with `i` appends the digits of
`i`. -/
def proxPatterns : List String :=
  ["overall proximity score: ", "overall proximity score of ", "proximity score: ",
    "overall score: "]

/-- `search_pattern.lower() in evaluation.lower()`. -/
def proxHits (evaluation : String) (p : List Char) : Bool :=
  containsSub (lower evaluation.data) (lower p)

/-- The proximity score extracted by the nested loops of
`_extract_proximity_info`: for each pattern in order, the first `i` in 1..10
whose formatted pattern occurs overwrites the score (the `break` leaves the
inner loop only), starting from the default 5.0. -/
def proxScore (evaluation : String) : ℚ :=
  proxPatterns.foldl (fun acc p =>
    match (List.range' 1 10).find? (fun i => proxHits evaluation (p.data ++ (toString i).data)) with
    | some i => (i : ℚ)
    | none => acc) 5

/-- The explicit negative override phrases. -/
def negPhrase (evaluation : String) : Bool :=
  containsSub (lower evaluation.data) "not relevant".data
    || containsSub (lower evaluation.data) "irrelevant".data

/-- The explicit positive override phrases. -/
def posPhrase (evaluation : String) : Bool :=
  containsSub (lower evaluation.data) "highly relevant".data
    || containsSub (lower evaluation.data) "very relevant".data

/-- `_extract_proximity_info`: score plus relevance flag.  The default flag
is `score >= 6.0`; then the negative override is applied, then the positive
override, in the statement order of the code. -/
def extractProximityInfo (evaluation : String) : ℚ × Bool :=
  let score := proxScore evaluation
  let rel0 := decide (6 ≤ score)
  let rel1 := if negPhrase evaluation then false else rel0
  let rel2 := if posPhrase evaluation then true else rel1
  (score, rel2)

/-- A hypothesis record as seen by the proximity agent: the input fields it
reads plus the three keys `process` adds (absent keys are `none`). -/
structure PHyp where
  statement : String
  rationale : String
  proximity_evaluation : Option String
  proximity_score : Option ℚ
  is_relevant : Option Bool
deriving DecidableEq, Inhabited

/-- The per-hypothesis body of `process`: copy the record and attach the
evaluation text, the extracted score and the relevance flag. -/
def evaluateOne (respond : ℕ → String) (i : ℕ) (h : PHyp) : PHyp :=
  let ev := respond i
  let info := extractProximityInfo ev
  { h with proximity_evaluation := some ev
           proximity_score := some info.1
           is_relevant := some info.2 }

/-- `ProximityAgent.process`: one evaluated record per input hypothesis, with
the model response for hypothesis `i` given by the oracle `respond i`. -/
def process (respond : ℕ → String) (hyps : List PHyp) : List PHyp :=
  hyps.enum.map (fun p => evaluateOne respond p.1 p.2)

/-- `filter_relevant_hypotheses`: keep records with
`h.get('proximity_score', 0) >= threshold`. -/
def filterRelevant (hyps : List PHyp) (threshold : ℚ) : List PHyp :=
  hyps.filter (fun h => decide (threshold ≤ h.proximity_score.getD 0))

end ProximityAgent

/-! ## Reflection agent (`src/agents/reflection_agent.py`) -/

namespace ReflectionAgent

/-- The positive sentiment lexicon of `_estimate_score`. -/
def positiveTerms : List String :=
  ["strong", "valid", "plausible", "consistent", "novel", "innovative"]

/-- The negative sentiment lexicon of `_estimate_score`. -/
def negativeTerms : List String :=
  ["weak", "invalid", "implausible", "inconsistent", "contradicts", "flawed"]

/-- `term in review.lower()` (the lexicon terms are already lower case). -/
def termHits (review : String) (t : String) : Bool :=
  containsSub (lower review.data) t.data

/-- `_estimate_score`: the positive fraction of the lexicon terms present,
defaulting to 0.5 when none is present.  Python float division is modelled
by `ℚ`. -/
def estimateScore (review : String) : ℚ :=
  let p := positiveTerms.countP (termHits review)
  let n := negativeTerms.countP (termHits review)
  if p + n = 0 then 1 / 2 else (p : ℚ) / ((p : ℚ) + (n : ℚ))

end ReflectionAgent

/-! ## Meta-review agent (`src/agents/meta_review_agent.py`) -/

namespace MetaReviewAgent

/-- The line test of `_extract_title`: non-blank after stripping, does not
start with a `#` character, and the raw line is shorter than 100
characters. -/
def qualifiesTitle (line : List Char) : Bool :=
  !(pyStrip line).isEmpty && !("#".data.isPrefixOf line) && decide (line.length < 100)

/-- `_extract_title`: the first qualifying line among the first 10 lines of
the report, stripped, defaulting to the fixed placeholder. -/
def extractTitle (report : String) : String :=
  match ((splitSub report.data "\n".data).take 10).find? qualifiesTitle with
  | some l => String.mk (pyStrip l)
  | none => "Research Report"

/-- Title extraction as the claim words it: the first non-empty line shorter
than 100 characters among the first 10 lines, with no condition on a
leading `#`.  Stated only to compare with `extractTitle`. -/
def titleClaimModel (report : String) : String :=
  match ((splitSub report.data "\n".data).take 10).find?
      (fun l => !(pyStrip l).isEmpty && decide (l.length < 100)) with
  | some l => String.mk (pyStrip l)
  | none => "Research Report"

end MetaReviewAgent

/-! ## Generation agent (`src/agents/generation_agent.py`) -/

namespace GenerationAgent

/-- The hypothesis dict under construction in `_parse_hypotheses`; a `none`
field is an absent key. -/
structure GenRec where
  hypothesis : Option String
  rationale : Option String
  evidence : Option String
  assumptions : Option String
  validation : Option String
deriving DecidableEq, Inhabited

/-- The initial `current_hypothesis = {}`. -/
def emptyGenRec : GenRec := ⟨none, none, none, none, none⟩

/-- Python dict truthiness: `{}` is falsy, any dict with a key is truthy. -/
def GenRec.isEmptyDict (r : GenRec) : Bool :=
  r.hypothesis.isNone && r.rationale.isNone && r.evidence.isNone
    && r.assumptions.isNone && r.validation.isNone

/-- `section.split(":\n", 1)[-1] if ":\n" in section else section`. -/
def sectionValue (s : String) : String :=
  if containsSub s.data ":\n".data then String.mk (dropAfterSep ":\n".data s.data) else s

/-- The body of the `for section in sections` loop of `_parse_hypotheses`,
acting on the state `(hypotheses, current_hypothesis)`.  Note that the
new-record branch requires both the literal substring `"Hypothesis"` and
the absence of the `hypothesis` key, and that a freshly started record owns
all five keys. -/
def genStep (st : List GenRec × GenRec) (s : String) : List GenRec × GenRec :=
  if containsSub s.data "Hypothesis".data && st.2.hypothesis.isNone then
    ((if st.2.isEmptyDict then st.1 else st.1 ++ [st.2]),
      { hypothesis := some (sectionValue s), rationale := some "", evidence := some "",
        assumptions := some "", validation := some "" })
  else if containsSub s.data "Rationale".data then
    (st.1, { st.2 with rationale := some (sectionValue s) })
  else if containsSub s.data "Evidence".data then
    (st.1, { st.2 with evidence := some (sectionValue s) })
  else if containsSub s.data "Assumptions".data then
    (st.1, { st.2 with assumptions := some (sectionValue s) })
  else if containsSub s.data "Validation".data || containsSub s.data "Testing".data then
    (st.1, { st.2 with validation := some (sectionValue s) })
  else st

/-- `_parse_hypotheses`: fold the section loop over `response.split("\n\n")`
and append the final record when it is non-empty. -/
def parseHypotheses (response : String) : List GenRec :=
  let st := ((splitSub response.data "\n\n".data).map String.mk).foldl genStep ([], emptyGenRec)
  if st.2.isEmptyDict then st.1 else st.1 ++ [st.2]

end GenerationAgent

/-! ## Evolution agent (`src/agents/evolution_agent.py`) -/

namespace EvolutionAgent

/-- A ranked hypothesis as read by `EvolutionAgent.process`; `rank` is
`none` when the key is missing. -/
structure EHyp where
  statement : String
  rationale : String
  evidence : String
  assumptions : String
  validation : String
  review : String
  rank : Option ℕ
deriving DecidableEq, Inhabited

/-- The sort key comparison of `sorted(ranked_hypotheses, key=lambda h:
h.get('rank', float('inf')))`: a missing rank compares as infinity. -/
def rankKeyLE (a b : Option ℕ) : Bool :=
  match a, b with
  | some x, some y => decide (x ≤ y)
  | some _, none => true
  | none, some _ => false
  | none, none => true

/-- The stable ascending sort by rank at the top of `process`. -/
def sortByRank (l : List EHyp) : List EHyp :=
  l.mergeSort (fun h1 h2 => rankKeyLE h1.rank h2.rank)

/-- The five free-text fields produced by `_parse_evolved_hypothesis` for
one model response; supplied by oracles below. -/
structure EvolvedContent where
  statement : String
  rationale : String
  evidence : String
  assumptions : String
  validation : String
deriving DecidableEq, Inhabited

/-- An evolved hypothesis record.  `original_rank` is set on individual
refinements (its inner value is the possibly missing rank of the parent),
`original_ranks` and `parent_hypotheses` only on the combination record,
mirroring which keys each branch of `process` writes. -/
structure EvolvedHyp where
  statement : String
  rationale : String
  evidence : String
  assumptions : String
  validation : String
  evolution_type : String
  original_rank : Option (Option ℕ)
  original_ranks : Option (List (Option ℕ))
  parent_hypotheses : Option (List String)
deriving DecidableEq

/-- `EvolutionAgent.process`: sort by rank, take the top `min 3 n`, evolve
each individually, and when at least two are available append exactly one
combination record built from the top two.  The oracle `refined i` is the
parsed content of the model response for the i-th individual evolution, and
`hybrid` the parsed content of the combination response. -/
def process (refined : ℕ → EvolvedContent) (hybrid : EvolvedContent) (ranked : List EHyp) :
    List EvolvedHyp :=
  let sorted := sortByRank ranked
  let top := sorted.take (min 3 ranked.length)
  let individuals := top.enum.map (fun p =>
    { statement := (refined p.1).statement
      rationale := (refined p.1).rationale
      evidence := (refined p.1).evidence
      assumptions := (refined p.1).assumptions
      validation := (refined p.1).validation
      evolution_type := "individual_refinement"
      original_rank := some p.2.rank
      original_ranks := none
      parent_hypotheses := none : EvolvedHyp })
  if 2 ≤ top.length then
    individuals ++
      [{ statement := hybrid.statement
         rationale := hybrid.rationale
         evidence := hybrid.evidence
         assumptions := hybrid.assumptions
         validation := hybrid.validation
         evolution_type := "hypothesis_combination"
         original_rank := none
         original_ranks := some [(top.getD 0 default).rank, (top.getD 1 default).rank]
         parent_hypotheses := some [(top.getD 0 default).statement,
           (top.getD 1 default).statement] }]
  else individuals

end EvolutionAgent

/-! ## Helper lemmas -/

/-- The first element of `range' s n` satisfying `q` is the least one. -/
lemma find?_range'_eq {q : ℕ → Bool} :
    ∀ n s m, s ≤ m → m < s + n → q m = true → (∀ k, s ≤ k → k < m → q k = false) →
      (List.range' s n).find? q = some m := by
  intro n
  induction n with
  | zero => intro s m h1 h2 _ _; omega
  | succ n ih =>
    intro s m h1 h2 hq hmin
    rw [List.range'_succ]
    rcases Nat.eq_or_lt_of_le h1 with hs | hs
    · subst hs; exact List.find?_cons_of_pos _ hq
    · rw [List.find?_cons_of_neg _ (by simp [hmin s le_rfl hs])]
      exact ih (s + 1) m hs (by omega) hq (fun k hk1 hk2 => hmin k (by omega) hk2)

/-- The trailing number of a colon pattern parses back to the number that
built it, for every criterion and every i in 1..10. -/
lemma parseScoreToken_colonPattern :
    ∀ c ∈ RankingAgent.criteria, ∀ i ∈ List.range' 1 10,
      RankingAgent.parseScoreToken (RankingAgent.colonPattern c i) = i := by decide

/-! ## Helper lemmas for the pairwise tournament -/

section PairwiseLemmas

open RankingAgent

/-- Distributing a flatMap of appended blocks into two flatMaps, up to
permutation. -/
lemma flatMap_append_perm {α β : Type} (A B : α → List β) :
    ∀ l : List α, (l.flatMap (fun x => A x ++ B x)).Perm (l.flatMap A ++ l.flatMap B) := by
  intro l
  induction l with
  | nil => simp
  | cons a l ih =>
    simp only [List.flatMap_cons]
    have h1 : ((A a ++ B a) ++ l.flatMap (fun x => A x ++ B x)).Perm
        ((A a ++ B a) ++ (l.flatMap A ++ l.flatMap B)) := List.Perm.append_left _ ih
    have hmid : (B a ++ (l.flatMap A ++ l.flatMap B)).Perm
        (l.flatMap A ++ (B a ++ l.flatMap B)) := by
      have hx : ((B a ++ l.flatMap A) ++ l.flatMap B).Perm
          ((l.flatMap A ++ B a) ++ l.flatMap B) :=
        List.Perm.append_right _ List.perm_append_comm
      simpa [List.append_assoc] using hx
    have h2 : ((A a ++ B a) ++ (l.flatMap A ++ l.flatMap B)).Perm
        ((A a ++ l.flatMap A) ++ (B a ++ l.flatMap B)) := by
      have := List.Perm.append_left (A a) hmid
      simpa [List.append_assoc] using this
    exact h1.trans h2

/-- Pointwise equal functions give equal flatMaps. -/
lemma flatMap_congr {α β : Type} {f g : α → List β} :
    ∀ {l : List α}, (∀ a ∈ l, f a = g a) → l.flatMap f = l.flatMap g := by
  intro l
  induction l with
  | nil => intro _; rfl
  | cons a l ih =>
    intro h
    simp only [List.flatMap_cons]
    rw [h a (by simp), ih (fun x hx => h x (by simp [hx]))]

/-- The nested loops of the code enumerate the same pairs as the recursive
form `pairsUpTo`, up to order. -/
lemma pairs_perm_pairsUpTo : ∀ n, (pairs n).Perm (pairsUpTo n) := by
  intro n
  induction n with
  | zero => simp [pairs, pairsUpTo]
  | succ n ih =>
    have hsplit : pairs (n + 1)
        = (List.range n).flatMap (fun i =>
            ((List.range' (i + 1) (n - (i + 1))).map (fun j => (i, j))) ++ [(i, n)]) := by
      unfold pairs
      rw [List.range_succ, List.flatMap_append]
      have hlast : ([n] : List ℕ).flatMap
          (fun i => (List.range' (i + 1) (n + 1 - (i + 1))).map (fun j => (i, j))) = [] := by
        simp
      rw [hlast, List.append_nil]
      refine flatMap_congr ?_
      intro i hi
      have hi' : i < n := List.mem_range.mp hi
      have harith : n + 1 - (i + 1) = (n - (i + 1)) + 1 := by omega
      rw [harith, List.range'_concat]
      have hn : i + 1 + 1 * (n - (i + 1)) = n := by omega
      rw [hn, List.map_append]
      rfl
    rw [hsplit]
    have hsingle : ∀ l : List ℕ, l.flatMap (fun i => [((i : ℕ), n)]) = l.map (fun i => (i, n)) := by
      intro l
      induction l with
      | nil => rfl
      | cons a l ihl => simp [List.flatMap_cons, ihl]
    have hstep1 : ((List.range n).flatMap (fun i =>
          ((List.range' (i + 1) (n - (i + 1))).map (fun j => (i, j))) ++ [(i, n)])).Perm
        (pairs n ++ (List.range n).map (fun i => (i, n))) := by
      have := flatMap_append_perm
        (fun i => (List.range' (i + 1) (n - (i + 1))).map (fun j => (i, j)))
        (fun i => [(i, n)]) (List.range n)
      rw [hsingle] at this
      exact this
    have hstep2 : (pairs n ++ (List.range n).map (fun i => (i, n))).Perm
        (pairsUpTo n ++ (List.range n).map (fun i => (i, n))) :=
      List.Perm.append_right _ ih
    exact (hstep1.trans hstep2)

/-- Both components of every enumerated pair are below `n`. -/
lemma pairs_bound {n : ℕ} : ∀ p ∈ pairs n, p.1 < p.2 ∧ p.2 < n := by
  intro p hp
  unfold pairs at hp
  rcases List.mem_flatMap.mp hp with ⟨i, hi, hmem⟩
  rcases List.mem_map.mp hmem with ⟨j, hj, rfl⟩
  have hi' : i < n := List.mem_range.mp hi
  have hj' : i + 1 ≤ j ∧ j < i + 1 + (n - (i + 1)) := List.mem_range'_1.mp hj
  exact ⟨by omega, by omega⟩

/-- Doubled closed form for the number of pairs. -/
lemma pairsUpTo_length : ∀ n, 2 * (pairsUpTo n).length = n * (n - 1) := by
  intro n
  induction n with
  | zero => rfl
  | succ n ih =>
    have hlen : (pairsUpTo (n + 1)).length = (pairsUpTo n).length + n := by
      simp [pairsUpTo]
    rw [hlen]
    cases n with
    | zero => rfl
    | succ m =>
      have ih2 : 2 * (pairsUpTo (m + 1)).length = (m + 1) * m := by simpa using ih
      have hr : (m + 1 + 1) * (m + 1 + 1 - 1) = (m + 1) * m + 2 * (m + 1) := by
        simp only [Nat.add_sub_cancel]
        ring
      rw [hr]
      omega

/-- Bumping an in-range counter adds one to the vector sum. -/
lemma sum_bumpWins {w : List ℕ} {k : ℕ} (hk : k < w.length) :
    (bumpWins w k).sum = w.sum + 1 := by
  unfold bumpWins
  rw [List.sum_set, List.getD_eq_getElem _ _ hk, if_pos hk]
  have hsplit : (List.take k w).sum + (List.drop k w).sum = w.sum :=
    List.sum_take_add_sum_drop w k
  rw [List.drop_eq_getElem_cons hk] at hsplit
  simp only [List.sum_cons] at hsplit
  omega

/-- One comparison step preserves the vector length. -/
lemma length_winStep (judge : ℕ → ℕ → ℕ) (w : List ℕ) (p : ℕ × ℕ) :
    (winStep judge w p).length = w.length := by
  unfold winStep bumpWins
  split
  · simp [List.length_set]
  · split <;> simp [List.length_set]

/-- One comparison step adds one to the total win count exactly when the
judgment is decisive. -/
lemma sum_winStep (judge : ℕ → ℕ → ℕ) (w : List ℕ) (p : ℕ × ℕ)
    (h1 : p.1 < w.length) (h2 : p.2 < w.length) :
    (winStep judge w p).sum = w.sum + (if decisive judge p then 1 else 0) := by
  unfold winStep decisive
  by_cases c1 : judge p.1 p.2 = 1
  · simp [c1, sum_bumpWins h1]
  · by_cases c2 : judge p.1 p.2 = 2
    · simp [c1, c2, sum_bumpWins h2]
    · have d1 : (judge p.1 p.2 == 1) = false := by simp [c1]
      have d2 : (judge p.1 p.2 == 2) = false := by simp [c2]
      simp [c1, c2, d1, d2]

/-- Folding the comparison steps over any pair list with in-range components
adds exactly the number of decisive comparisons to the total win count. -/
lemma foldl_winStep_sum (judge : ℕ → ℕ → ℕ) :
    ∀ (ps : List (ℕ × ℕ)) (w : List ℕ),
      (∀ p ∈ ps, p.1 < w.length ∧ p.2 < w.length) →
      (ps.foldl (winStep judge) w).sum = w.sum + ps.countP (decisive judge) ∧
        (ps.foldl (winStep judge) w).length = w.length := by
  intro ps
  induction ps with
  | nil => intro w _; simp
  | cons p ps ih =>
    intro w hb
    have hp := hb p (by simp)
    have hlen := length_winStep judge w p
    have hrest := ih (winStep judge w p)
      (fun q hq => by rw [hlen]; exact hb q (by simp [hq]))
    have hsum := sum_winStep judge w p hp.1 hp.2
    rw [List.foldl_cons]
    refine ⟨?_, by rw [hrest.2, hlen]⟩
    rw [hrest.1, hsum, List.countP_cons]
    by_cases hd : decisive judge p = true
    · rw [if_pos hd]
      omega
    · rw [if_neg hd]
      omega

/-- Counting the pairs that contain a fixed index in the recursive pair
enumeration: each of the other `n - 1` indices contributes one pair. -/
lemma pairsUpTo_count : ∀ n idx, idx < n →
    (pairsUpTo n).countP (fun p => p.1 == idx || p.2 == idx) = n - 1 := by
  intro n
  induction n with
  | zero => intro idx h; omega
  | succ n ih =>
    intro idx hidx
    have hupto : ∀ p ∈ pairsUpTo n, p.1 < n ∧ p.2 < n := by
      intro p hp
      have hmem : p ∈ pairs n := ((pairs_perm_pairsUpTo n).mem_iff).mpr hp
      have hb := pairs_bound p hmem
      exact ⟨by omega, hb.2⟩
    unfold pairsUpTo
    rw [List.countP_append, List.countP_map]
    rcases Nat.lt_or_ge idx n with hlt | hge
    · have hmapcount : (List.range n).countP
          ((fun p : ℕ × ℕ => p.1 == idx || p.2 == idx) ∘ (fun i => (i, n))) = 1 := by
        have hne : (n == idx) = false := by simp; omega
        have : ((fun p : ℕ × ℕ => p.1 == idx || p.2 == idx) ∘ (fun i => (i, n)))
            = fun i => i == idx := by
          funext i
          simp [hne]
        rw [this, ← List.count_eq_countP]
        exact List.count_eq_one_of_mem (List.nodup_range n) (List.mem_range.mpr hlt)
      rw [ih idx hlt, hmapcount]
      omega
    · have heq : idx = n := by omega
      rw [heq]
      have hzero : (pairsUpTo n).countP (fun p => p.1 == n || p.2 == n) = 0 := by
        refine List.countP_eq_zero.mpr ?_
        intro p hp
        have hb := hupto p hp
        simp only [Bool.or_eq_true, beq_iff_eq, not_or]
        omega
      have hmapcount : (List.range n).countP
          ((fun p : ℕ × ℕ => p.1 == n || p.2 == n) ∘ (fun i => (i, n))) = n := by
        have hconst : ((fun p : ℕ × ℕ => p.1 == n || p.2 == n) ∘ (fun i => (i, n)))
            = fun _ => true := by
          funext i
          simp
        rw [hconst]
        simp [List.countP_true]
      rw [hzero, hmapcount]
      omega

/-- A strictly increasing two-element list is a sublist of `range n`. -/
lemma pair_sublist_range : ∀ {n i j : ℕ}, i < j → j < n → [i, j].Sublist (List.range n) := by
  intro n
  induction n with
  | zero => intro i j _ h; omega
  | succ n ih =>
    intro i j hij hj
    rw [List.range_succ]
    rcases Nat.lt_or_ge j n with h | h
    · exact (ih hij h).trans (List.sublist_append_left _ _)
    · have hj' : j = n := by omega
      subst hj'
      exact List.Sublist.append (List.singleton_sublist.mpr (List.mem_range.mpr (by omega)))
        (List.Sublist.refl [j])

/-- In a duplicate-free list, the first element of a two-element sublist
occurs at a strictly smaller index. -/
lemma sublist_pair_indexOf_lt : ∀ {l : List ℕ}, l.Nodup → ∀ {i j : ℕ},
    [i, j].Sublist l → l.indexOf i < l.indexOf j := by
  intro l
  induction l with
  | nil => intro _ i j h; simp at h
  | cons a t ih =>
    intro hnd i j hs
    have hna : a ∉ t := (List.nodup_cons.mp hnd).1
    cases hs with
    | cons _ hrest =>
      have hi : i ∈ t := hrest.subset (by simp)
      have hj : j ∈ t := hrest.subset (by simp)
      have hai : a ≠ i := fun he => hna (he ▸ hi)
      have haj : a ≠ j := fun he => hna (he ▸ hj)
      rw [List.indexOf_cons_ne t hai, List.indexOf_cons_ne t haj]
      exact Nat.succ_lt_succ (ih (List.nodup_cons.mp hnd).2 hrest)
    | cons₂ _ hrest =>
      have hj : j ∈ t := List.singleton_sublist.mp hrest
      have haj : a ≠ j := fun he => hna (he ▸ hj)
      rw [List.indexOf_cons_self, List.indexOf_cons_ne t haj]
      exact Nat.succ_pos _

/-- The win-count comparator is transitive. -/
lemma winsLE_trans (w : List ℕ) : ∀ a b c, winsLE w a b = true → winsLE w b c = true →
    winsLE w a c = true := by
  intro a b c h1 h2
  simp only [winsLE, decide_eq_true_eq] at *
  omega

/-- The win-count comparator is total. -/
lemma winsLE_total (w : List ℕ) : ∀ a b, (winsLE w a b || winsLE w b a) = true := by
  intro a b
  simp only [winsLE, Bool.or_eq_true, decide_eq_true_eq]
  omega

/-- The ranked index list is a permutation of `range n`. -/
lemma rankedIndices_perm (w : List ℕ) (n : ℕ) :
    (rankedIndices w n).Perm (List.range n) := List.mergeSort_perm _ _

/-- The ranked index list has one entry per hypothesis. -/
lemma length_rankedIndices (w : List ℕ) (n : ℕ) : (rankedIndices w n).length = n := by
  unfold rankedIndices
  rw [List.length_mergeSort, List.length_range]

/-- Stability of the rank order: two indices with equal win counts keep
their input order in the ranked index list. -/
lemma rankedIndices_stable (w : List ℕ) {n i j : ℕ} (hij : i < j) (hj : j < n)
    (hwin : w.getD i 0 = w.getD j 0) :
    (rankedIndices w n).indexOf i < (rankedIndices w n).indexOf j := by
  have hle : winsLE w i j = true := by
    simp only [winsLE, decide_eq_true_eq]
    omega
  have hsub : [i, j].Sublist (List.range n) := pair_sublist_range hij hj
  have hsub2 : [i, j].Sublist (rankedIndices w n) :=
    List.pair_sublist_mergeSort (winsLE_trans w) (winsLE_total w) hle hsub
  have hnd : (rankedIndices w n).Nodup :=
    ((rankedIndices_perm w n).nodup_iff).mpr (List.nodup_range _)
  exact sublist_pair_indexOf_lt hnd hsub2

end PairwiseLemmas

/-! ## Claim theorems: the pairwise tournament -/

/-- C5: the pairwise strategy issues exactly n (n - 1) / 2 comparisons, the
total win count equals the number of decisive (non-tie) comparisons, and
every index takes part in exactly n - 1 comparisons. -/
theorem pairwise_win_conservation (n : ℕ) (judge : ℕ → ℕ → ℕ) :
    (RankingAgent.pairs n).length = n * (n - 1) / 2 ∧
      (RankingAgent.winsVec judge n).sum
        = (RankingAgent.pairs n).countP (RankingAgent.decisive judge) ∧
      ∀ idx, idx < n → RankingAgent.totalComparisons n idx = n - 1 := by
  refine ⟨?_, ?_, ?_⟩
  · have h2 := pairsUpTo_length n
    have hp : (RankingAgent.pairs n).length = (RankingAgent.pairsUpTo n).length :=
      (pairs_perm_pairsUpTo n).length_eq
    omega
  · have hb : ∀ p ∈ RankingAgent.pairs n,
        p.1 < (List.replicate n (0 : ℕ)).length ∧ p.2 < (List.replicate n (0 : ℕ)).length := by
      intro p hp
      have hpb := pairs_bound p hp
      rw [List.length_replicate]
      omega
    have hsum := (foldl_winStep_sum judge (RankingAgent.pairs n) (List.replicate n 0) hb).1
    unfold RankingAgent.winsVec
    rw [hsum]
    simp
  · intro idx hidx
    unfold RankingAgent.totalComparisons
    rw [List.Perm.countP_eq _ (pairs_perm_pairsUpTo n)]
    exact pairsUpTo_count n idx hidx

/-- Witness for C5 at n = 3 with a concrete judge. -/
theorem pairwise_win_conservation_witness :
    (RankingAgent.pairs 3).length = 3 * (3 - 1) / 2 ∧
      (RankingAgent.winsVec (fun i j => (i + j) % 3) 3).sum
        = (RankingAgent.pairs 3).countP (RankingAgent.decisive (fun i j => (i + j) % 3)) ∧
      RankingAgent.totalComparisons 3 1 = 3 - 1 :=
  ⟨(pairwise_win_conservation 3 (fun i j => (i + j) % 3)).1,
    (pairwise_win_conservation 3 (fun i j => (i + j) % 3)).2.1,
    (pairwise_win_conservation 3 (fun i j => (i + j) % 3)).2.2 1 (by omega)⟩

/-- C1: on a non-empty input the pairwise strategy returns records whose
rank values are exactly 1..n in order; every input index receives the rank
given by its position in the ranked index list, and tie-breaking is
stable: of two hypotheses with equal win counts the one earlier in the
input receives the smaller (better) rank. -/
theorem pairwise_rank_contiguous_stable {H : Type} [Inhabited H]
    (judge : ℕ → ℕ → ℕ) (hyps : List H) (_hne : hyps ≠ []) :
    ((RankingAgent.rankByPairwise judge hyps).map RankingAgent.RankedHyp.rank
      = (List.range hyps.length).map (· + 1)) ∧
    (∀ i, i < hyps.length →
      ∃ p, ∃ hp : p < (RankingAgent.rankByPairwise judge hyps).length,
        ((RankingAgent.rankByPairwise judge hyps).get ⟨p, hp⟩).hyp = hyps.getD i default ∧
        ((RankingAgent.rankByPairwise judge hyps).get ⟨p, hp⟩).rank
          = RankingAgent.rankAssigned judge hyps.length i) ∧
    (∀ i j, i < j → j < hyps.length →
      (RankingAgent.winsVec judge hyps.length).getD i 0
        = (RankingAgent.winsVec judge hyps.length).getD j 0 →
      RankingAgent.rankAssigned judge hyps.length i
        < RankingAgent.rankAssigned judge hyps.length j) := by
  have hout : RankingAgent.rankByPairwise judge hyps
      = (RankingAgent.rankedIndices (RankingAgent.winsVec judge hyps.length)
          hyps.length).enum.map (fun p =>
        { hyp := hyps.getD p.2 default
          rank := p.1 + 1
          wins := (RankingAgent.winsVec judge hyps.length).getD p.2 0
          total_comparisons := RankingAgent.totalComparisons hyps.length p.2
          : RankingAgent.RankedHyp H }) := rfl
  have hrlen : (RankingAgent.rankedIndices (RankingAgent.winsVec judge hyps.length)
      hyps.length).length = hyps.length := length_rankedIndices _ _
  refine ⟨?_, ?_, ?_⟩
  · rw [hout, List.map_map]
    rw [show (RankingAgent.RankedHyp.rank ∘ (fun p : ℕ × ℕ =>
        { hyp := hyps.getD p.2 default
          rank := p.1 + 1
          wins := (RankingAgent.winsVec judge hyps.length).getD p.2 0
          total_comparisons := RankingAgent.totalComparisons hyps.length p.2
          : RankingAgent.RankedHyp H })) = ((· + 1) ∘ Prod.fst) from rfl]
    rw [← List.map_map, List.enum_map_fst, hrlen]
  · intro i hi
    have hmem : i ∈ RankingAgent.rankedIndices (RankingAgent.winsVec judge hyps.length)
        hyps.length :=
      ((rankedIndices_perm _ _).mem_iff).mpr (List.mem_range.mpr hi)
    have hidx := List.indexOf_lt_length.mpr hmem
    have hbound : (RankingAgent.rankedIndices (RankingAgent.winsVec judge hyps.length)
        hyps.length).indexOf i < (RankingAgent.rankByPairwise judge hyps).length := by
      rw [hout, List.length_map, List.enum_length]
      exact hidx
    refine ⟨_, hbound, ?_, ?_⟩
    · rw [List.get_eq_getElem]
      conv in RankingAgent.rankByPairwise judge hyps => rw [hout]
      rw [List.getElem_map, List.getElem_enum]
      simp only [List.getElem_indexOf]
    · rw [List.get_eq_getElem]
      conv in RankingAgent.rankByPairwise judge hyps => rw [hout]
      rw [List.getElem_map, List.getElem_enum]
      rfl
  · intro i j hij hj hwin
    have := rankedIndices_stable (RankingAgent.winsVec judge hyps.length) hij hj hwin
    unfold RankingAgent.rankAssigned
    omega

/-- Witness for C1: three hypotheses judged all ties keep their input order,
and index 0 beats index 1 on the tie-break. -/
theorem pairwise_rank_contiguous_stable_witness :
    ((RankingAgent.rankByPairwise (fun _ _ => 0) ["a", "b", "c"]).map
        RankingAgent.RankedHyp.rank
      = (List.range (["a", "b", "c"] : List String).length).map (· + 1)) ∧
      RankingAgent.rankAssigned (fun _ _ => 0) (["a", "b", "c"] : List String).length 0
        < RankingAgent.rankAssigned (fun _ _ => 0) (["a", "b", "c"] : List String).length 1 :=
  ⟨(pairwise_rank_contiguous_stable (fun _ _ => 0) ["a", "b", "c"] (by simp)).1,
    (pairwise_rank_contiguous_stable (fun _ _ => 0) ["a", "b", "c"] (by simp)).2.2 0 1
      (by omega) (by decide) (by decide)⟩

/-! ## Claim theorems: score extraction and the scoring strategy -/

/-- C2: the overall score of the scoring strategy is the arithmetic mean of
only the criterion scores actually extracted; when exactly novelty = 8 and
relevance = 6 are found, the score dict has exactly those two entries and
the overall score is 7, not 14 / 5. -/
theorem scoring_mean_over_found_criteria (e : String)
    (h1 : RankingAgent.findScore e "novelty" = some 8)
    (h2 : RankingAgent.findScore e "relevance" = some 6)
    (h3 : RankingAgent.findScore e "plausibility" = none)
    (h4 : RankingAgent.findScore e "testability" = none)
    (h5 : RankingAgent.findScore e "potential impact" = none) :
    RankingAgent.extractScores e = [("novelty", 8), ("relevance", 6)] ∧
      RankingAgent.overallScore (RankingAgent.extractScores e) = 7 := by
  have hx : RankingAgent.extractScores e = [("novelty", 8), ("relevance", 6)] := by
    simp [RankingAgent.extractScores, RankingAgent.criteria, h1, h2, h3, h4, h5]
  refine ⟨hx, ?_⟩
  rw [hx]
  have hne : ¬([("novelty", (8 : ℕ)), ("relevance", 6)] : List (String × ℕ)) = [] := by simp
  simp only [RankingAgent.overallScore, if_neg hne]
  norm_num

/-- Witness for C2 on a concrete evaluation text. -/
theorem scoring_mean_over_found_criteria_witness :
    RankingAgent.extractScores "Novelty: 8 Relevance: 6" = [("novelty", 8), ("relevance", 6)] ∧
      RankingAgent.overallScore (RankingAgent.extractScores "Novelty: 8 Relevance: 6") = 7 :=
  scoring_mean_over_found_criteria "Novelty: 8 Relevance: 6"
    (by decide) (by decide) (by decide) (by decide) (by decide)

/-- C3: score extraction is a first-match substring scan with n ascending
from 1: whenever some colon pattern of a criterion occurs in the text, the
extracted score is the least n in 1..10 whose pattern occurs, not the
number actually written in the text. -/
theorem extract_scores_first_match (e c : String) (hc : c ∈ RankingAgent.criteria) (m : ℕ)
    (hm1 : 1 ≤ m) (hm2 : m ≤ 10)
    (hm : RankingAgent.patternHits e (RankingAgent.colonPattern c m) = true)
    (hmin : ∀ k, 1 ≤ k → k < m →
      RankingAgent.patternHits e (RankingAgent.colonPattern c k) = false) :
    RankingAgent.findScore e c = some m := by
  have hA : List.find? (RankingAgent.patternHits e)
      ((List.range' 1 10).map (RankingAgent.colonPattern c))
      = some (RankingAgent.colonPattern c m) := by
    rw [List.find?_map]
    have hfind := find?_range'_eq 10 1 m hm1 (by omega) hm
      (fun k hk1 hk2 => hmin k hk1 hk2)
    rw [show (RankingAgent.patternHits e ∘ RankingAgent.colonPattern c)
        = fun i => RankingAgent.patternHits e (RankingAgent.colonPattern c i) from rfl, hfind]
    rfl
  unfold RankingAgent.findScore RankingAgent.scorePatterns
  rw [List.find?_append, List.find?_append, hA]
  simp only [Option.or]
  exact congrArg some (parseScoreToken_colonPattern c hc m (by rw [List.mem_range'_1]; omega))

/-- Witness for C3: a text containing the literal text novelty: 10 gets
novelty score 1, because the pattern for 1 is a substring of it and is
tried first. -/
theorem extract_scores_first_match_witness :
    RankingAgent.findScore "novelty: 10" "novelty" = some 1 :=
  extract_scores_first_match "novelty: 10" "novelty" (by decide) 1 le_rfl (by omega)
    (by decide) (fun k hk1 hk2 => absurd (Nat.lt_of_le_of_lt hk1 hk2) (Nat.lt_irrefl 1))

/-! ## Claim theorems: evolution variants -/

/-- Taking a prefix does not change the elements it keeps. -/
lemma getD_take_of_lt {α : Type} (l : List α) (k i : ℕ) (d : α) (h : i < k) :
    (l.take k).getD i d = l.getD i d := by
  rw [List.getD_eq_getElem?_getD, List.getD_eq_getElem?_getD, List.getElem?_take, if_pos h]

/-- C6: on a ranked input of n >= 1 hypotheses, evolution produces exactly
`min 3 n` individually refined variants (hence at least that many), and
when n >= 2 exactly one combination variant, whose parent references are
exactly the two statements of the top-1 and top-2 hypotheses of the
rank-sorted input. -/
theorem evolution_variant_counts (refined : ℕ → EvolutionAgent.EvolvedContent)
    (hybrid : EvolutionAgent.EvolvedContent) (ranked : List EvolutionAgent.EHyp)
    (_hn : 1 ≤ ranked.length) :
    ((EvolutionAgent.process refined hybrid ranked).countP
        (fun h => h.evolution_type == "individual_refinement") = min 3 ranked.length) ∧
    (2 ≤ ranked.length →
      ∃ c, (EvolutionAgent.process refined hybrid ranked).filter
          (fun h => h.evolution_type == "hypothesis_combination") = [c] ∧
        c.parent_hypotheses
          = some [((EvolutionAgent.sortByRank ranked).getD 0 default).statement,
              ((EvolutionAgent.sortByRank ranked).getD 1 default).statement] ∧
        (c.parent_hypotheses.getD []).length = 2) := by
  have hsortlen : (EvolutionAgent.sortByRank ranked).length = ranked.length := by
    unfold EvolutionAgent.sortByRank
    exact List.length_mergeSort _
  have htoplen : ((EvolutionAgent.sortByRank ranked).take (min 3 ranked.length)).length
      = min 3 ranked.length := by
    rw [List.length_take, hsortlen]
    omega
  have hbeqf : (("hypothesis_combination" : String) == "individual_refinement") = false := by
    decide
  have hbeqt : (("individual_refinement" : String) == "individual_refinement") = true := by
    decide
  have hbeqc : (("hypothesis_combination" : String) == "hypothesis_combination") = true := by
    decide
  have hbeqtf : (("individual_refinement" : String) == "hypothesis_combination") = false := by
    decide
  constructor
  · simp only [EvolutionAgent.process]
    split
    · rw [List.countP_append, List.countP_eq_length.mpr ?_]
      · have hone : List.countP (fun h : EvolutionAgent.EvolvedHyp =>
            h.evolution_type == "individual_refinement")
            [{ statement := hybrid.statement, rationale := hybrid.rationale,
               evidence := hybrid.evidence, assumptions := hybrid.assumptions,
               validation := hybrid.validation,
               evolution_type := "hypothesis_combination", original_rank := none,
               original_ranks := some [(((EvolutionAgent.sortByRank ranked).take
                   (min 3 ranked.length)).getD 0 default).rank,
                 (((EvolutionAgent.sortByRank ranked).take
                   (min 3 ranked.length)).getD 1 default).rank],
               parent_hypotheses := some [(((EvolutionAgent.sortByRank ranked).take
                   (min 3 ranked.length)).getD 0 default).statement,
                 (((EvolutionAgent.sortByRank ranked).take
                   (min 3 ranked.length)).getD 1 default).statement] }] = 0 := by
          simp [List.countP_cons, hbeqf]
        rw [hone, List.length_map, List.enum_length, htoplen]
        omega
      · intro r hr
        rcases List.mem_map.mp hr with ⟨p, _, rfl⟩
        exact hbeqt
    · rw [List.countP_eq_length.mpr ?_]
      · rw [List.length_map, List.enum_length, htoplen]
      · intro r hr
        rcases List.mem_map.mp hr with ⟨p, _, rfl⟩
        exact hbeqt
  · intro h2
    have htop2 : 2 ≤ ((EvolutionAgent.sortByRank ranked).take (min 3 ranked.length)).length := by
      rw [htoplen]
      omega
    simp only [EvolutionAgent.process]
    rw [if_pos htop2]
    refine ⟨{ statement := hybrid.statement
              rationale := hybrid.rationale
              evidence := hybrid.evidence
              assumptions := hybrid.assumptions
              validation := hybrid.validation
              evolution_type := "hypothesis_combination"
              original_rank := none
              original_ranks := some [(((EvolutionAgent.sortByRank ranked).take
                  (min 3 ranked.length)).getD 0 default).rank,
                (((EvolutionAgent.sortByRank ranked).take
                  (min 3 ranked.length)).getD 1 default).rank]
              parent_hypotheses := some [(((EvolutionAgent.sortByRank ranked).take
                  (min 3 ranked.length)).getD 0 default).statement,
                (((EvolutionAgent.sortByRank ranked).take
                  (min 3 ranked.length)).getD 1 default).statement] }, ?_, ?_, ?_⟩
    · rw [List.filter_append]
      have hnil : List.filter (fun h : EvolutionAgent.EvolvedHyp =>
          h.evolution_type == "hypothesis_combination")
          (((EvolutionAgent.sortByRank ranked).take (min 3 ranked.length)).enum.map
            (fun p =>
              { statement := (refined p.1).statement
                rationale := (refined p.1).rationale
                evidence := (refined p.1).evidence
                assumptions := (refined p.1).assumptions
                validation := (refined p.1).validation
                evolution_type := "individual_refinement"
                original_rank := some p.2.rank
                original_ranks := none
                parent_hypotheses := none : EvolutionAgent.EvolvedHyp })) = [] := by
        rw [List.filter_eq_nil_iff]
        intro r hr
        rcases List.mem_map.mp hr with ⟨p, _, rfl⟩
        simp [hbeqtf]
      rw [hnil, List.nil_append, List.filter_cons, if_pos hbeqc]
      rfl
    · show some [(((EvolutionAgent.sortByRank ranked).take (min 3 ranked.length)).getD 0
            default).statement,
          (((EvolutionAgent.sortByRank ranked).take (min 3 ranked.length)).getD 1
            default).statement] = _
      rw [getD_take_of_lt _ _ _ _ (by omega : 0 < min 3 ranked.length),
        getD_take_of_lt _ _ _ _ (by omega : 1 < min 3 ranked.length)]
    · rfl

/-- Witness for C6 on a two-element ranked input. -/
theorem evolution_variant_counts_witness :
    ((EvolutionAgent.process (fun _ => default) default
        [⟨"s1", "r", "e", "a", "v", "rev", some 2⟩,
          ⟨"s2", "r", "e", "a", "v", "rev", some 1⟩]).countP
      (fun h => h.evolution_type == "individual_refinement")
        = min 3 ([⟨"s1", "r", "e", "a", "v", "rev", some 2⟩,
          ⟨"s2", "r", "e", "a", "v", "rev", some 1⟩] : List EvolutionAgent.EHyp).length) ∧
      ∃ c, (EvolutionAgent.process (fun _ => default) default
          [⟨"s1", "r", "e", "a", "v", "rev", some 2⟩,
            ⟨"s2", "r", "e", "a", "v", "rev", some 1⟩]).filter
          (fun h => h.evolution_type == "hypothesis_combination") = [c] ∧
        c.parent_hypotheses
          = some [((EvolutionAgent.sortByRank
                [⟨"s1", "r", "e", "a", "v", "rev", some 2⟩,
                  ⟨"s2", "r", "e", "a", "v", "rev", some 1⟩]).getD 0 default).statement,
              ((EvolutionAgent.sortByRank
                [⟨"s1", "r", "e", "a", "v", "rev", some 2⟩,
                  ⟨"s2", "r", "e", "a", "v", "rev", some 1⟩]).getD 1 default).statement] ∧
        (c.parent_hypotheses.getD []).length = 2 :=
  ⟨(evolution_variant_counts (fun _ => default) default _ (by simp)).1,
    (evolution_variant_counts (fun _ => default) default _ (by simp)).2 (by simp)⟩

/-! ## Claim theorems: proximity relevance overrides -/

/-- C4 counterexample: the positive override is checked after the negative
one, so an evaluation with extracted score 8 containing the phrase
"not relevant" can still yield `is_relevant = true` when a positive phrase
is also present, contradicting the claim that such a text always yields
false. -/
theorem proximity_override_counterexample :
    (ProximityAgent.extractProximityInfo
        "proximity score: 8, not relevant, highly relevant").1 = 8 ∧
      ProximityAgent.negPhrase "proximity score: 8, not relevant, highly relevant" = true ∧
      (ProximityAgent.extractProximityInfo
        "proximity score: 8, not relevant, highly relevant").2 = true := by
  refine ⟨by decide, by decide, by decide⟩

/-- C4 amended: `is_relevant` defaults to score >= 6 and the phrase
overrides are applied after the default, the negative one first and the
positive one last; so a negative phrase forces false only when no positive
phrase is present, and a positive phrase always forces true. -/
theorem proximity_override_order (ev : String) :
    (ProximityAgent.posPhrase ev = true →
      (ProximityAgent.extractProximityInfo ev).2 = true) ∧
    (ProximityAgent.negPhrase ev = true → ProximityAgent.posPhrase ev = false →
      (ProximityAgent.extractProximityInfo ev).2 = false) ∧
    (ProximityAgent.negPhrase ev = false → ProximityAgent.posPhrase ev = false →
      (ProximityAgent.extractProximityInfo ev).2
        = decide (6 ≤ ProximityAgent.proxScore ev)) := by
  refine ⟨fun hp => ?_, fun hn hp => ?_, fun hn hp => ?_⟩ <;>
    simp [ProximityAgent.extractProximityInfo, hp] <;> simp [hn]

/-- Witness for the amended C4 at the two example texts of the claim: score
8 with only a negative phrase gives false, score 3 with a positive phrase
gives true. -/
theorem proximity_override_order_witness :
    (ProximityAgent.extractProximityInfo "proximity score: 8 and not relevant").2 = false ∧
      (ProximityAgent.extractProximityInfo "proximity score: 3 and highly relevant").2 = true :=
  ⟨(proximity_override_order "proximity score: 8 and not relevant").2.1 (by decide) (by decide),
    (proximity_override_order "proximity score: 3 and highly relevant").1 (by decide)⟩

/-! ## Claim theorems: proximity process and filter -/

/-- C7 counterexample: the filter keeps records by
`proximity_score >= threshold` and never consults `is_relevant`; a
hypothesis whose evaluation text yields the default score 5 has
`is_relevant = false` (5 < 6) yet survives `filter_relevant_hypotheses`
at the default threshold 5.0, so the filter does not exclude exactly the
records with `is_relevant = false`. -/
theorem proximity_filter_counterexample :
    ((ProximityAgent.process (fun _ => "the hypothesis aligns somewhat")
        [⟨"s", "r", none, none, none⟩]).map (fun h => h.is_relevant)) = [some false] ∧
      ProximityAgent.filterRelevant
          (ProximityAgent.process (fun _ => "the hypothesis aligns somewhat")
            [⟨"s", "r", none, none, none⟩]) 5
        = ProximityAgent.process (fun _ => "the hypothesis aligns somewhat")
            [⟨"s", "r", none, none, none⟩] := by
  refine ⟨by decide, by decide⟩

/-- C7 amended: proximity evaluation never discards a hypothesis (`process`
returns exactly one evaluated record per input, in order), and the
separate `filter_relevant_hypotheses` operation never mutates or deletes
the evaluated records, returning the sub-list of exactly those records
whose proximity score reaches the threshold (`is_relevant` is recorded but
not consulted by the filter). -/
theorem proximity_process_and_filter (respond : ℕ → String)
    (hyps : List ProximityAgent.PHyp) (t : ℚ) :
    (ProximityAgent.process respond hyps).length = hyps.length ∧
    (∀ i, i < hyps.length →
      (ProximityAgent.process respond hyps).getD i default
        = ProximityAgent.evaluateOne respond i (hyps.getD i default)) ∧
    (ProximityAgent.filterRelevant (ProximityAgent.process respond hyps) t).Sublist
      (ProximityAgent.process respond hyps) ∧
    (∀ h, h ∈ ProximityAgent.filterRelevant (ProximityAgent.process respond hyps) t ↔
      h ∈ ProximityAgent.process respond hyps ∧ t ≤ h.proximity_score.getD 0) := by
  refine ⟨?_, ?_, List.filter_sublist _, ?_⟩
  · simp [ProximityAgent.process, List.enum_length]
  · intro i hi
    have hi1 : i < (ProximityAgent.process respond hyps).length := by
      simpa [ProximityAgent.process, List.enum_length] using hi
    have hi2 : i < hyps.enum.length := by simpa [List.enum_length] using hi
    rw [List.getD_eq_getElem _ _ hi1, List.getD_eq_getElem _ _ hi]
    show (List.map _ hyps.enum)[i] = _
    rw [List.getElem_map, List.getElem_enum]
  · intro h
    simp [ProximityAgent.filterRelevant, List.mem_filter]

/-- Witness for the amended C7 on a concrete one-element batch. -/
theorem proximity_process_and_filter_witness :
    (ProximityAgent.process (fun _ => "ok") [⟨"s", "r", none, none, none⟩]).length = 1 ∧
      (ProximityAgent.process (fun _ => "ok") [⟨"s", "r", none, none, none⟩]).getD 0 default
        = ProximityAgent.evaluateOne (fun _ => "ok") 0
            (([⟨"s", "r", none, none, none⟩] : List ProximityAgent.PHyp).getD 0 default) :=
  ⟨(proximity_process_and_filter (fun _ => "ok") [⟨"s", "r", none, none, none⟩] 5).1,
    (proximity_process_and_filter (fun _ => "ok") [⟨"s", "r", none, none, none⟩] 5).2.1 0
      (by decide)⟩

/-! ## Claim theorems: reflection quality estimate -/

/-- C8: the coarse quality estimate is
positive term count / (positive + negative term count) over the fixed
lexicon (stated multiplicatively to avoid the division), and is exactly
one half when no lexicon term occurs in the review. -/
theorem reflection_quality_estimate (review : String) :
    (ReflectionAgent.positiveTerms.countP (ReflectionAgent.termHits review)
        + ReflectionAgent.negativeTerms.countP (ReflectionAgent.termHits review) ≠ 0 →
      ReflectionAgent.estimateScore review
          * ((ReflectionAgent.positiveTerms.countP (ReflectionAgent.termHits review) : ℚ)
            + (ReflectionAgent.negativeTerms.countP (ReflectionAgent.termHits review) : ℚ))
        = (ReflectionAgent.positiveTerms.countP (ReflectionAgent.termHits review) : ℚ)) ∧
    ((∀ t ∈ ReflectionAgent.positiveTerms ++ ReflectionAgent.negativeTerms,
        ReflectionAgent.termHits review t = false) →
      ReflectionAgent.estimateScore review = 1 / 2) := by
  constructor
  · intro hpn
    have hq : ((ReflectionAgent.positiveTerms.countP (ReflectionAgent.termHits review) : ℚ)
        + (ReflectionAgent.negativeTerms.countP (ReflectionAgent.termHits review) : ℚ)) ≠ 0 := by
      exact_mod_cast fun h => hpn (by exact_mod_cast h)
    simp only [ReflectionAgent.estimateScore, if_neg hpn]
    exact div_mul_cancel₀ _ hq
  · intro hall
    have hp : ReflectionAgent.positiveTerms.countP (ReflectionAgent.termHits review) = 0 :=
      List.countP_eq_zero.mpr (fun t ht => by
        simp [hall t (List.mem_append_left _ ht)])
    have hn : ReflectionAgent.negativeTerms.countP (ReflectionAgent.termHits review) = 0 :=
      List.countP_eq_zero.mpr (fun t ht => by
        simp [hall t (List.mem_append_right _ ht)])
    simp [ReflectionAgent.estimateScore, hp, hn]

/-- Witness for C8: a review with two positive hits and one negative hit,
and a review with no lexicon hit at all. -/
theorem reflection_quality_estimate_witness :
    (ReflectionAgent.estimateScore "strong and novel yet flawed"
        * ((ReflectionAgent.positiveTerms.countP
              (ReflectionAgent.termHits "strong and novel yet flawed") : ℚ)
          + (ReflectionAgent.negativeTerms.countP
              (ReflectionAgent.termHits "strong and novel yet flawed") : ℚ))
      = (ReflectionAgent.positiveTerms.countP
          (ReflectionAgent.termHits "strong and novel yet flawed") : ℚ)) ∧
      ReflectionAgent.estimateScore "term free text" = 1 / 2 :=
  ⟨(reflection_quality_estimate "strong and novel yet flawed").1 (by decide),
    (reflection_quality_estimate "term free text").2 (by decide)⟩

/-! ## Claim theorems: report title extraction -/

/-- C9 counterexample: the code additionally skips lines starting with a
hash character, which the claim omits; on a report whose first line is a
markdown heading the code and the claim disagree. -/
theorem title_extraction_counterexample :
    MetaReviewAgent.extractTitle "# Heading\nA Title" = "A Title" ∧
      MetaReviewAgent.titleClaimModel "# Heading\nA Title" = "# Heading" ∧
      ("A Title" : String) ≠ "# Heading" := by
  refine ⟨by decide, by decide, by decide⟩

/-- C9 amended: the extracted title is the first line among the first 10
lines of the body that is non-blank after stripping, does not start with a
hash character and is shorter than 100 characters, returned stripped; when
no line qualifies the title is the fixed placeholder. -/
theorem title_extraction_rule (report : String) :
    (∀ l, ((splitSub report.data "\n".data).take 10).find? MetaReviewAgent.qualifiesTitle
        = some l →
      MetaReviewAgent.extractTitle report = String.mk (pyStrip l) ∧
        (pyStrip l).isEmpty = false ∧ "#".data.isPrefixOf l = false ∧ l.length < 100) ∧
    (((splitSub report.data "\n".data).take 10).find? MetaReviewAgent.qualifiesTitle = none →
      MetaReviewAgent.extractTitle report = "Research Report") := by
  constructor
  · intro l hl
    have hq := List.find?_some hl
    simp only [MetaReviewAgent.qualifiesTitle, Bool.and_eq_true, Bool.not_eq_true',
      decide_eq_true_eq] at hq
    refine ⟨?_, hq.1.1, hq.1.2, hq.2⟩
    unfold MetaReviewAgent.extractTitle
    rw [hl]
  · intro hl
    unfold MetaReviewAgent.extractTitle
    rw [hl]

/-- Witness for the amended C9: a report whose ten first lines all start
with a hash gets the placeholder title. -/
theorem title_extraction_rule_witness :
    MetaReviewAgent.extractTitle "#a\n#b" = "Research Report" :=
  (title_extraction_rule "#a\n#b").2 (by decide)

/-! ## Claim theorems: the generation parser -/

/-- Invariant of the section loop of `_parse_hypotheses`: the accumulated
list holds at most one record, every accumulated record lacks the
hypothesis key, and once the list is non-empty the current record has the
hypothesis key (so the new-record guard can never fire again). -/
lemma genStep_inv (st : List GenerationAgent.GenRec × GenerationAgent.GenRec) (s : String)
    (h1 : st.1.length ≤ 1) (h2 : ∀ r ∈ st.1, r.hypothesis = none)
    (h3 : st.1 ≠ [] → st.2.hypothesis.isSome = true) :
    (GenerationAgent.genStep st s).1.length ≤ 1 ∧
      (∀ r ∈ (GenerationAgent.genStep st s).1, r.hypothesis = none) ∧
      ((GenerationAgent.genStep st s).1 ≠ [] →
        (GenerationAgent.genStep st s).2.hypothesis.isSome = true) := by
  unfold GenerationAgent.genStep
  by_cases hg : (containsSub s.data "Hypothesis".data && st.2.hypothesis.isNone) = true
  · rw [if_pos hg]
    have hnone : st.2.hypothesis = none :=
      Option.isNone_iff_eq_none.mp (Bool.and_elim_right hg)
    have hempty : st.1 = [] := by
      by_contra hne
      have := h3 hne
      rw [hnone] at this
      simp at this
    by_cases he : st.2.isEmptyDict = true
    · rw [if_pos he]
      exact ⟨h1, h2, fun _ => rfl⟩
    · rw [if_neg he]
      rw [hempty]
      refine ⟨by simp, ?_, fun _ => rfl⟩
      intro r hr
      simp at hr
      rw [hr, hnone]
  · rw [if_neg hg]
    split
    · exact ⟨h1, h2, fun hne => h3 hne⟩
    · split
      · exact ⟨h1, h2, fun hne => h3 hne⟩
      · split
        · exact ⟨h1, h2, fun hne => h3 hne⟩
        · split
          · exact ⟨h1, h2, fun hne => h3 hne⟩
          · exact ⟨h1, h2, h3⟩

/-- The invariant carried through the whole section fold. -/
lemma foldl_genStep_inv (sections : List String) :
    ∀ st : List GenerationAgent.GenRec × GenerationAgent.GenRec,
      st.1.length ≤ 1 → (∀ r ∈ st.1, r.hypothesis = none) →
      (st.1 ≠ [] → st.2.hypothesis.isSome = true) →
      (sections.foldl GenerationAgent.genStep st).1.length ≤ 1 ∧
        (∀ r ∈ (sections.foldl GenerationAgent.genStep st).1, r.hypothesis = none) ∧
        ((sections.foldl GenerationAgent.genStep st).1 ≠ [] →
          (sections.foldl GenerationAgent.genStep st).2.hypothesis.isSome = true) := by
  induction sections with
  | nil => intro st h1 h2 h3; exact ⟨h1, h2, h3⟩
  | cons s rest ih =>
    intro st h1 h2 h3
    have hs := genStep_inv st s h1 h2 h3
    exact ih _ hs.1 hs.2.1 hs.2.2

/-- C10 counterexample: a response whose first paragraph matches a section
keyword before any Hypothesis paragraph produces two records, refuting the
claim that the parser always returns at most one record. -/
theorem generation_parse_counterexample :
    (GenerationAgent.parseHypotheses "Rationale: X\n\nHypothesis 1: Y").length = 2 := by
  decide

/-- C10 amended: the parser returns at most two records, and at most one of
them carries the hypothesis key; once that key is set the new-record guard
can never fire again, so no later Hypothesis paragraph starts another
record, and the only possible second record is the keyless prefix record
flushed when the guard first fires. -/
theorem generation_parse_bounds (response : String) :
    (GenerationAgent.parseHypotheses response).length ≤ 2 ∧
      (GenerationAgent.parseHypotheses response).countP
        (fun r => r.hypothesis.isSome) ≤ 1 := by
  have hinv := foldl_genStep_inv ((splitSub response.data "\n\n".data).map String.mk)
    ([], GenerationAgent.emptyGenRec) (by simp) (by simp) (by simp)
  unfold GenerationAgent.parseHypotheses
  set st := ((splitSub response.data "\n\n".data).map String.mk).foldl
    GenerationAgent.genStep ([], GenerationAgent.emptyGenRec) with hst
  have hcount : st.1.countP (fun r => r.hypothesis.isSome) = 0 :=
    List.countP_eq_zero.mpr (fun r hr => by simp [hinv.2.1 r hr])
  by_cases he : st.2.isEmptyDict = true
  · rw [if_pos he]
    exact ⟨le_trans hinv.1 (by omega), le_trans (le_of_eq hcount) (by omega)⟩
  · rw [if_neg he]
    constructor
    · rw [List.length_append]
      simpa using hinv.1
    · rw [List.countP_append, hcount]
      have hone : List.countP (fun r : GenerationAgent.GenRec => r.hypothesis.isSome)
          [st.2] ≤ 1 := by
        by_cases h : st.2.hypothesis.isSome = true <;> simp [List.countP_cons, h]
      omega

end CoScientist
